import Mathlib

/-!
# Verification of the partition-consumer / offset-ledger core (sarama-cluster)

Shallow embedding of the two source files of the repository:

* `cluster.go` — `offsetInfo` (the offset ledger) with `Serialize`,
  `Deserialize`, `NextOffset`, and `int32Slice.Diff` (set difference over
  ascending sequences via binary search, Go's `sort.Search`);
* the unnamed file — `partitionConsumer` with `Close`, `State`,
  `MarkCommitted`, `AddPendingOffset`, `SetOffset`, `RemovePendingOffset`,
  `MarkOffset`, and the `partitionState` snapshot type.

Modelling conventions:

* Go `string` is modelled as `List Char`; `strings.Split(. , ",")` is
  `splitComma`; `strconv.FormatInt(k, 10)` is `formatInt`;
  `strconv.ParseInt(k, 10, 64)` is `parseInt64` (`none` = parse error).
* A Go `map[int64]struct{}` is modelled as `Option (List Int)`:
  `none` is Go's nil map, `some l` an allocated map whose key set is the
  elements of `l` (the list order stands for the map's unspecified iteration
  order; theorems quantify over it).  Writing to a nil map panics in Go;
  reading, ranging and `len` on a nil map behave as on an empty one.
* Operations that can panic return `Option _`, where `none` models the
  panic (nil-map write, nil-pointer dereference).
* Pointer-receiver methods take an `Option partitionConsumer` (the handle:
  `none` is a nil pointer).  A mutator returns
  `Option (Option partitionConsumer)`: the outer `none` is a panic, a
  `some h` is a normal return with `h` the handle's state afterwards.
* The external `sarama.PartitionConsumer` is modelled by `streamHandle`,
  keeping exactly what the embedded code observes of it: the error its
  `Close` returns, its cursor, and whether it has been closed.
* Concurrency (the forwarding loop, channel blocking, the mutex) is out of
  the sequential model; the `dying` channel is kept as a closed-flag.
-/

/-- Go `strings.Split(s, ",")`: split on every comma; `""` gives `[""]`,
a trailing comma yields a trailing empty part. -/
def splitComma : List Char → List (List Char)
  | [] => [[]]
  | c :: cs =>
    if c = ',' then [] :: splitComma cs
    else
      match splitComma cs with
      | [] => [[c]]
      | t :: ts => (c :: t) :: ts

/-- ASCII decimal digit test ('0'..'9' are code points 48..57). -/
def isDigit (c : Char) : Bool := 48 ≤ c.toNat && c.toNat ≤ 57

/-- The digits part of Go's `strconv.ParseInt`, base 10: a non-empty
all-digit string, read by positional accumulation. -/
def parseDigits (cs : List Char) : Option Nat :=
  if cs ≠ [] ∧ cs.all isDigit then
    some (cs.foldl (fun a c => a * 10 + (c.toNat - 48)) 0)
  else none

/-- Go `strconv.ParseInt(s, 10, 64)`: optional sign, decimal digits,
64-bit range check.  `none` models a non-nil error. -/
def parseInt64 (cs : List Char) : Option Int :=
  match cs with
  | [] => none
  | c :: _ =>
    let ds := if c = '-' ∨ c = '+' then cs.tail else cs
    match parseDigits ds with
    | none => none
    | some n =>
      let v : Int := if c = '-' then -(n : Int) else (n : Int)
      if -(2 ^ 63) ≤ v ∧ v ≤ 2 ^ 63 - 1 then some v else none

/-- Decimal digits of `n`, most significant first, by repeated division;
the fuel argument (any value `≥ n`) makes the recursion structural. -/
def natCharsAux : Nat → Nat → List Char
  | 0, _ => []
  | fuel + 1, n =>
    if n = 0 then []
    else natCharsAux fuel (n / 10) ++ [Nat.digitChar (n % 10)]

/-- Decimal rendering of a natural number (`0` renders as `"0"`). -/
def natChars (n : Nat) : List Char :=
  if n = 0 then ['0'] else natCharsAux n n

/-- Go `strconv.FormatInt(k, 10)`. -/
def formatInt (k : Int) : List Char :=
  if k < 0 then '-' :: natChars k.natAbs else natChars k.toNat

/-- Insertion into an allocated Go map's key list:
`m[k] = struct{}{}` on a non-nil map. -/
def mapInsert (m : List Int) (k : Int) : List Int :=
  if k ∈ m then m else m ++ [k]

-- ------------------------------------------------------------------
-- offsetInfo (cluster.go)

/-- `offsetInfo`: last confirmed offset, pending-offset map
(`none` = Go nil map), serialized metadata. -/
structure offsetInfo where
  Offset : Int
  PendingOffsets : Option (List Int)
  Metadata : List Char
deriving DecidableEq

/-- `offsetInfo.Serialize`: render every pending offset as decimal followed
by a comma, accumulating into `Metadata` (ranging a nil map is a no-op). -/
def offsetInfo.Serialize (i : offsetInfo) : offsetInfo :=
  { i with
    Metadata :=
      (i.PendingOffsets.getD []).foldl
        (fun meta k => meta ++ formatInt k ++ [',']) [] }

/-- One iteration of `offsetInfo.Deserialize`'s loop over the split parts:
skip empty parts and parse failures, otherwise insert into the map.
Outer `none` = the Go panic of writing to a nil map. -/
def deserStep (m : Option (List Int)) (k : List Char) :
    Option (Option (List Int)) :=
  if k = [] then some m
  else
    match parseInt64 k with
    | none => some m
    | some off =>
      match m with
      | none => none
      | some ms => some (some (mapInsert ms off))

/-- `offsetInfo.Deserialize`: split `Metadata` on commas and insert every
parseable part into `PendingOffsets`.  `none` models the run-time panic
that Go raises when the pending map is nil and a token is inserted. -/
def offsetInfo.Deserialize (i : offsetInfo) : Option offsetInfo :=
  ((splitComma i.Metadata).foldlM deserStep i.PendingOffsets).map
    (fun m => { i with PendingOffsets := m })

/-- `offsetInfo.NextOffset(fallback)`: if a confirmed offset exists
(`Offset > -1`), return the first iteration key of the pending map when it
is non-empty, else the confirmed offset; otherwise the fallback. -/
def offsetInfo.NextOffset (i : offsetInfo) (fallback : Int) : Int :=
  if i.Offset > -1 then
    match i.PendingOffsets.getD [] with
    | k :: _ => k
    | [] => i.Offset
  else fallback

-- ------------------------------------------------------------------
-- int32Slice.Diff (cluster.go)

/-- Go's `sort.Search` loop body: binary search for the least index in
`[i, j)` where `f` holds, assuming `f` monotone there.  The fuel argument
(any value `≥ j - i`) makes the loop's recursion structural. -/
def sortSearchAux (f : Nat → Bool) : Nat → Nat → Nat → Nat
  | 0, i, _ => i
  | fuel + 1, i, j =>
    if i < j then
      let h := (i + j) / 2
      if f h then sortSearchAux f fuel i h
      else sortSearchAux f fuel (h + 1) j
    else i

/-- Go `sort.Search(n, f)`. -/
def sortSearch (n : Nat) (f : Nat → Bool) : Nat := sortSearchAux f n 0 n

/-- Partition-id sequences (`int32Slice`); ids are modelled as `Int`. -/
abbrev int32Slice := List Int

/-- `int32Slice.Diff`: keep, in order, each element of `p` that binary
search does not find in `o` (which must be sorted ascending). -/
def int32Slice.Diff (p o : int32Slice) : int32Slice :=
  match p with
  | [] => []
  | x :: xs =>
    let olen := o.length
    let n := sortSearch olen (fun i => decide (o.getD i 0 ≥ x))
    if n < olen ∧ o.getD n 0 = x then int32Slice.Diff xs o
    else x :: int32Slice.Diff xs o

-- ------------------------------------------------------------------
-- partitionConsumer (the unnamed source file)

/-- `partitionState`: ledger snapshot plus the dirty flag. -/
structure partitionState where
  Info : offsetInfo
  Dirty : Bool
deriving DecidableEq

/-- What the code observes of the external `sarama.PartitionConsumer`:
the error its `Close` would return, its read cursor, whether closed. -/
structure streamHandle where
  closeErr : Option (List Char)
  cursor : Int
  closed : Bool
deriving DecidableEq

/-- `partitionConsumer`: stream handle, guarded state, closed flag, and the
`dying` channel kept as a closed-flag (`dead` and the loop are concurrent
behaviour outside this sequential model). -/
structure partitionConsumer where
  pcm : streamHandle
  state : partitionState
  closed : Bool
  dyingClosed : Bool
deriving DecidableEq

/-- The Go zero value of `partitionState` (its map field is a nil map). -/
def zeroPartitionState : partitionState :=
  { Info := { Offset := 0, PendingOffsets := none, Metadata := [] }
    Dirty := false }

/-- `partitionConsumer.Close`: a second call hits the `closed` guard and
returns nil at once; the first call closes the stream, sets the flag and
signals `dying`, returning the stream's close error. -/
def partitionConsumer.Close (c : partitionConsumer) :
    Option (List Char) × partitionConsumer :=
  if c.closed then (none, c)
  else
    (c.pcm.closeErr,
     { c with
       pcm := { c.pcm with closed := true }
       closed := true
       dyingClosed := true })

/-- `partitionConsumer.State` on the handle (`none` = nil pointer): nil is
checked and yields the zero-value state; otherwise snapshot the state and
lazily reconcile metadata and pending set.  The outer `none` is the panic
`Deserialize` raises on a nil pending map. -/
def partitionConsumer.State :
    Option partitionConsumer → Option partitionState
  | none => some zeroPartitionState
  | some c =>
    let st := c.state
    if st.Info.Metadata = [] then some { st with Info := st.Info.Serialize }
    else if (st.Info.PendingOffsets.getD []).length = 0 then
      match st.Info.Deserialize with
      | none => none
      | some info => some { st with Info := info }
    else some st

/-- `partitionConsumer.MarkCommitted` on the handle: nil is checked (no-op);
otherwise clear `Dirty` when the committed offset equals the confirmed one
or the metadata is non-empty. -/
def partitionConsumer.MarkCommitted :
    Option partitionConsumer → Int → Option (Option partitionConsumer)
  | none, _ => some none
  | some c, offset =>
    some (some
      (if offset = c.state.Info.Offset ∨ c.state.Info.Metadata ≠ [] then
        { c with state := { c.state with Dirty := false } }
      else c))

/-- `partitionConsumer.AddPendingOffset` on the handle: no nil check — a nil
handle panics (outer `none`), and so does inserting into a nil map. -/
def partitionConsumer.AddPendingOffset :
    Option partitionConsumer → Int → Option (Option partitionConsumer)
  | none, _ => none
  | some c, offset =>
    match c.state.Info.PendingOffsets with
    | none => none
    | some m =>
      some (some
        { c with
          state := { c.state with
            Info := { c.state.Info with
              PendingOffsets := some (mapInsert m offset) } } })

/-- `partitionConsumer.SetOffset` on the handle: no nil check — a nil handle
panics; otherwise reposition the stream cursor only. -/
def partitionConsumer.SetOffset :
    Option partitionConsumer → Int → Option (Option partitionConsumer)
  | none, _ => none
  | some c, offset =>
    some (some { c with pcm := { c.pcm with cursor := offset } })

/-- `partitionConsumer.RemovePendingOffset` on the handle: no nil check — a
nil handle panics; `delete` on a (possibly nil) map never panics. -/
def partitionConsumer.RemovePendingOffset :
    Option partitionConsumer → Int → Option (Option partitionConsumer)
  | none, _ => none
  | some c, offset =>
    some (some
      { c with
        state := { c.state with
          Info := { c.state.Info with
            PendingOffsets :=
              c.state.Info.PendingOffsets.map
                (fun m => m.filter (fun k => k ≠ offset)) } } })

/-- `partitionConsumer.MarkOffset` on the handle: nil is checked (no-op);
otherwise, when the offset strictly advances, store it, adopt non-empty
metadata and set `Dirty`. -/
def partitionConsumer.MarkOffset :
    Option partitionConsumer → Int → List Char →
      Option (Option partitionConsumer)
  | none, _, _ => some none
  | some c, offset, metadata =>
    some (some
      (if offset > c.state.Info.Offset then
        { c with
          state := { c.state with
            Info := { c.state.Info with
              Offset := offset
              Metadata :=
                if metadata ≠ [] then metadata else c.state.Info.Metadata }
            Dirty := true } }
      else c))

-- ------------------------------------------------------------------
-- Decimal formatting / parsing lemmas

lemma digitChar_isDigit (d : Nat) (h : d < 10) :
    isDigit (Nat.digitChar d) = true ∧ (Nat.digitChar d).toNat - 48 = d := by
  interval_cases d <;> exact ⟨by decide, by decide⟩

lemma natCharsAux_spec (fuel : Nat) :
    ∀ n, n ≤ fuel →
      (natCharsAux fuel n).all isDigit = true ∧
      ∀ a, (natCharsAux fuel n).foldl (fun a c => a * 10 + (c.toNat - 48)) a
        = a * 10 ^ (natCharsAux fuel n).length + n := by
  induction fuel with
  | zero =>
    intro n hn
    have : n = 0 := Nat.le_zero.mp hn
    subst this
    exact ⟨rfl, fun a => by simp [natCharsAux]⟩
  | succ fuel ih =>
    intro n hn
    by_cases h0 : n = 0
    · subst h0
      exact ⟨by simp [natCharsAux], fun a => by simp [natCharsAux]⟩
    · have hdiv : n / 10 ≤ fuel := by
        have := Nat.div_lt_self (Nat.pos_of_ne_zero h0) (by norm_num : 1 < 10)
        omega
      obtain ⟨ihall, ihfold⟩ := ih (n / 10) hdiv
      have hmod : n % 10 < 10 := Nat.mod_lt _ (by norm_num)
      obtain ⟨hdig, hval⟩ := digitChar_isDigit (n % 10) hmod
      have hunf : natCharsAux (fuel + 1) n
          = natCharsAux fuel (n / 10) ++ [Nat.digitChar (n % 10)] := by
        simp [natCharsAux, h0]
      constructor
      · rw [hunf, List.all_append]
        simp [ihall, hdig]
      · intro a
        rw [hunf, List.foldl_append, ihfold, List.length_append]
        simp only [List.foldl_cons, List.foldl_nil, List.length_singleton]
        rw [hval]
        have hdm : n / 10 * 10 + n % 10 = n := by omega
        calc (a * 10 ^ (natCharsAux fuel (n / 10)).length + n / 10) * 10 + n % 10
            = a * (10 ^ (natCharsAux fuel (n / 10)).length * 10)
                + (n / 10 * 10 + n % 10) := by ring
          _ = a * 10 ^ ((natCharsAux fuel (n / 10)).length + 1) + n := by
              rw [hdm, pow_succ]

lemma natChars_all_isDigit (n : Nat) : (natChars n).all isDigit = true := by
  by_cases h0 : n = 0
  · subst h0; decide
  · rw [natChars, if_neg h0]
    exact (natCharsAux_spec n n le_rfl).1

lemma natChars_ne_nil (n : Nat) : natChars n ≠ [] := by
  by_cases h0 : n = 0
  · subst h0; decide
  · rw [natChars, if_neg h0]
    obtain ⟨m, rfl⟩ := Nat.exists_eq_succ_of_ne_zero h0
    simp [natCharsAux]

lemma parseDigits_natChars (n : Nat) : parseDigits (natChars n) = some n := by
  by_cases h0 : n = 0
  · subst h0; decide
  · have hne := natChars_ne_nil n
    have hall := natChars_all_isDigit n
    rw [parseDigits, if_pos ⟨hne, hall⟩]
    rw [natChars, if_neg h0] at *
    rw [(natCharsAux_spec n n le_rfl).2 0]
    simp

lemma isDigit_ne_comma (c : Char) (h : isDigit c = true) : c ≠ ',' := by
  intro he; subst he; exact absurd h (by decide)

lemma isDigit_ne_dash (c : Char) (h : isDigit c = true) : c ≠ '-' := by
  intro he; subst he; exact absurd h (by decide)

lemma isDigit_ne_plus (c : Char) (h : isDigit c = true) : c ≠ '+' := by
  intro he; subst he; exact absurd h (by decide)

lemma parseInt64_formatInt (k : Int) (h0 : 0 ≤ k) (h1 : k ≤ 2 ^ 63 - 1) :
    parseInt64 (formatInt k) = some k := by
  have hnn : ¬ k < 0 := not_lt.mpr h0
  have hne := natChars_ne_nil k.toNat
  have hall := natChars_all_isDigit k.toNat
  have hpd := parseDigits_natChars k.toNat
  rw [formatInt, if_neg hnn]
  rcases hcs : natChars k.toNat with _ | ⟨c, rest⟩
  · exact absurd hcs hne
  · rw [hcs] at hall hpd
    have hc : isDigit c = true :=
      List.all_eq_true.mp hall c (List.mem_cons_self c rest)
    have hcm : ¬ (c = '-' ∨ c = '+') := by
      rintro (h | h)
      · exact isDigit_ne_dash c hc h
      · exact isDigit_ne_plus c hc h
    have hcd : ¬ c = '-' := isDigit_ne_dash c hc
    have hrange : -(2 ^ 63) ≤ ((k.toNat : Int)) ∧ (k.toNat : Int) ≤ 2 ^ 63 - 1 := by
      rw [Int.toNat_of_nonneg h0]
      constructor
      · omega
      · exact h1
    simp only [parseInt64, List.tail_cons, if_neg hcm, hpd, if_neg hcd,
      if_pos hrange]
    rw [Int.toNat_of_nonneg h0]

lemma comma_not_mem_formatInt (k : Int) : ',' ∉ formatInt k := by
  have hnat : ∀ n : Nat, ',' ∉ natChars n := by
    intro n hmem
    have := List.all_eq_true.mp (natChars_all_isDigit n) ',' hmem
    exact absurd this (by decide)
  rw [formatInt]
  by_cases hk : k < 0
  · rw [if_pos hk]
    intro hmem
    rcases List.mem_cons.mp hmem with h | h
    · exact absurd h.symm (by decide)
    · exact hnat _ h
  · rw [if_neg hk]
    exact hnat _

-- ------------------------------------------------------------------
-- splitComma and serialization-fold lemmas

lemma splitComma_token (tok rest : List Char) (h : ',' ∉ tok) :
    splitComma (tok ++ ',' :: rest) = tok :: splitComma rest := by
  induction tok with
  | nil => simp [splitComma]
  | cons c tok ih =>
    have hc : ¬ c = ',' := fun he => h (he ▸ List.mem_cons_self c tok)
    have ht : ',' ∉ tok := fun hm => h (List.mem_cons_of_mem c hm)
    rw [List.cons_append, splitComma, if_neg hc, ih ht]

lemma foldl_append_eq_join (g : Int → List Char) (l : List Int) :
    ∀ init : List Char,
      l.foldl (fun meta k => meta ++ g k) init = init ++ (l.map g).flatten := by
  induction l with
  | nil => intro init; simp
  | cons k l ih =>
    intro init
    rw [List.foldl_cons, ih, List.map_cons, List.flatten_cons,
      List.append_assoc]

lemma mem_mapInsert (m : List Int) (k x : Int) :
    x ∈ mapInsert m k ↔ x ∈ m ∨ x = k := by
  rw [mapInsert]
  by_cases h : k ∈ m
  · rw [if_pos h]
    constructor
    · exact fun hx => Or.inl hx
    · rintro (hx | rfl) <;> [exact hx; exact h]
  · rw [if_neg h]
    simp

lemma foldlM_deserStep_some (toks : List (List Char)) :
    ∀ m : List Int,
      ∃ m' : List Int,
        toks.foldlM deserStep (some m) = some (some m') ∧
        ∀ x : Int, x ∈ m' ↔ x ∈ m ∨ ∃ t ∈ toks, parseInt64 t = some x := by
  induction toks with
  | nil =>
    intro m
    exact ⟨m, rfl, fun x => by simp⟩
  | cons t ts ih =>
    intro m
    by_cases ht : t = []
    · subst ht
      obtain ⟨m', hm', hmem⟩ := ih m
      refine ⟨m', ?_, ?_⟩
      · rw [List.foldlM_cons]
        show (deserStep (some m) []).bind _ = _
        rw [deserStep, if_pos rfl]
        exact hm'
      · intro x
        rw [hmem x]
        constructor
        · rintro (hx | ⟨u, hu, hpx⟩)
          · exact Or.inl hx
          · exact Or.inr ⟨u, List.mem_cons_of_mem _ hu, hpx⟩
        · rintro (hx | ⟨u, hu, hpx⟩)
          · exact Or.inl hx
          · rcases List.mem_cons.mp hu with rfl | hu
            · exact absurd hpx (by rw [parseInt64]; exact Option.some_ne_none _ ∘ Eq.symm ∘ Eq.trans rfl)
            · exact Or.inr ⟨u, hu, hpx⟩
    · rcases hp : parseInt64 t with _ | off
      · obtain ⟨m', hm', hmem⟩ := ih m
        refine ⟨m', ?_, ?_⟩
        · rw [List.foldlM_cons]
          show (deserStep (some m) t).bind _ = _
          rw [deserStep, if_neg ht, hp]
          exact hm'
        · intro x
          rw [hmem x]
          constructor
          · rintro (hx | ⟨u, hu, hpx⟩)
            · exact Or.inl hx
            · exact Or.inr ⟨u, List.mem_cons_of_mem _ hu, hpx⟩
          · rintro (hx | ⟨u, hu, hpx⟩)
            · exact Or.inl hx
            · rcases List.mem_cons.mp hu with rfl | hu
              · rw [hp] at hpx; exact absurd hpx (by simp)
              · exact Or.inr ⟨u, hu, hpx⟩
      · obtain ⟨m', hm', hmem⟩ := ih (mapInsert m off)
        refine ⟨m', ?_, ?_⟩
        · rw [List.foldlM_cons]
          show (deserStep (some m) t).bind _ = _
          rw [deserStep, if_neg ht, hp]
          exact hm'
        · intro x
          rw [hmem x, mem_mapInsert]
          constructor
          · rintro ((hx | rfl) | ⟨u, hu, hpx⟩)
            · exact Or.inl hx
            · exact Or.inr ⟨t, List.mem_cons_self _ _, hp⟩
            · exact Or.inr ⟨u, List.mem_cons_of_mem _ hu, hpx⟩
          · rintro (hx | ⟨u, hu, hpx⟩)
            · exact Or.inl (Or.inl hx)
            · rcases List.mem_cons.mp hu with rfl | hu
              · rw [hp] at hpx
                exact Or.inl (Or.inr (Option.some_injective _ hpx).symm)
              · exact Or.inr ⟨u, hu, hpx⟩

lemma foldlM_deserStep_none (toks : List (List Char))
    (h : ∃ t ∈ toks, (parseInt64 t).isSome) :
    toks.foldlM deserStep none = none := by
  induction toks with
  | nil => simp at h
  | cons t ts ih =>
    rcases hp : parseInt64 t with _ | off
    · have ht' : ∃ u ∈ ts, (parseInt64 u).isSome := by
        obtain ⟨u, hu, hpu⟩ := h
        rcases List.mem_cons.mp hu with rfl | hu
        · rw [hp] at hpu; exact absurd hpu (by simp)
        · exact ⟨u, hu, hpu⟩
      have htne : deserStep none t = some none := by
        rw [deserStep]
        by_cases ht : t = []
        · rw [if_pos ht]
        · rw [if_neg ht, hp]
      rw [List.foldlM_cons]
      show (deserStep none t).bind _ = _
      rw [htne]
      exact ih ht'
    · have ht : ¬ t = [] := by
        intro he; subst he
        rw [parseInt64] at hp
        exact Option.some_ne_none _ hp.symm
      rw [List.foldlM_cons]
      show (deserStep none t).bind _ = _
      rw [deserStep, if_neg ht, hp]
      rfl

-- ------------------------------------------------------------------
-- Binary search (sort.Search) correctness

lemma sortSearchAux_spec (f : Nat → Bool) :
    ∀ fuel i j, j - i ≤ fuel → i ≤ j →
      (∀ a b, i ≤ a → a ≤ b → b < j → f a = true → f b = true) →
      i ≤ sortSearchAux f fuel i j ∧ sortSearchAux f fuel i j ≤ j ∧
      (∀ k, i ≤ k → k < sortSearchAux f fuel i j → f k = false) ∧
      (∀ k, sortSearchAux f fuel i j ≤ k → k < j → f k = true) := by
  intro fuel
  induction fuel with
  | zero =>
    intro i j hfuel hij _
    have : i = j := by omega
    subst this
    rw [sortSearchAux]
    exact ⟨le_rfl, le_rfl, fun k h1 h2 => absurd h2 (by omega),
      fun k h1 h2 => absurd h2 (by omega)⟩
  | succ fuel ih =>
    intro i j hfuel hij hmono
    by_cases hlt : i < j
    · have hmid : i ≤ (i + j) / 2 ∧ (i + j) / 2 < j := by omega
      rcases hf : f ((i + j) / 2) with _ | _
      · -- f at the midpoint is false: search the upper half
        have hrec : sortSearchAux f (fuel + 1) i j
            = sortSearchAux f fuel ((i + j) / 2 + 1) j := by
          simp [sortSearchAux, hlt, hf]
        obtain ⟨h1, h2, hlo, hhi⟩ := ih ((i + j) / 2 + 1) j (by omega) (by omega)
          (fun a b ha hab hb hfa => hmono a b (by omega) hab hb hfa)
        rw [hrec]
        refine ⟨by omega, h2, ?_, hhi⟩
        intro k hk1 hk2
        by_cases hk : (i + j) / 2 + 1 ≤ k
        · exact hlo k hk hk2
        · rcases hfk : f k with _ | _
          · rfl
          · exact absurd (hmono k ((i + j) / 2) hk1 (by omega) (by omega) hfk) (by simp [hf])
      · -- f at the midpoint is true: search the lower half
        have hrec : sortSearchAux f (fuel + 1) i j
            = sortSearchAux f fuel i ((i + j) / 2) := by
          simp [sortSearchAux, hlt, hf]
        obtain ⟨h1, h2, hlo, hhi⟩ := ih i ((i + j) / 2) (by omega) (by omega)
          (fun a b ha hab hb hfa => hmono a b ha hab (by omega) hfa)
        rw [hrec]
        refine ⟨h1, by omega, hlo, ?_⟩
        intro k hk1 hk2
        by_cases hk : k < (i + j) / 2
        · exact hhi k hk1 hk
        · exact hmono ((i + j) / 2) k hmid.1 (by omega) hk2 hf
    · have : i = j := by omega
      subst this
      rw [sortSearchAux, if_neg hlt]
      exact ⟨le_rfl, le_rfl, fun k h1 h2 => absurd h2 (by omega),
        fun k h1 h2 => absurd h2 (by omega)⟩

lemma sortSearch_hit_iff (o : List Int) (x : Int)
    (hs : List.Pairwise (· ≤ ·) o) :
    (sortSearch o.length (fun i => decide (o.getD i 0 ≥ x)) < o.length ∧
      o.getD (sortSearch o.length (fun i => decide (o.getD i 0 ≥ x))) 0 = x)
      ↔ x ∈ o := by
  have hget : ∀ a b (ha : a < o.length) (hb : b < o.length), a ≤ b →
      o.getD a 0 ≤ o.getD b 0 := by
    intro a b ha hb hab
    rw [List.getD_eq_getElem o 0 ha, List.getD_eq_getElem o 0 hb]
    rcases eq_or_lt_of_le hab with rfl | hab'
    · exact le_rfl
    · exact List.pairwise_iff_getElem.mp hs a b ha hb hab'
  have hmono : ∀ a b, 0 ≤ a → a ≤ b → b < o.length →
      decide (o.getD a 0 ≥ x) = true → decide (o.getD b 0 ≥ x) = true := by
    intro a b _ hab hb hfa
    have := of_decide_eq_true hfa
    exact decide_eq_true (le_trans this (hget a b (by omega) hb hab))
  obtain ⟨h1, h2, hlo, hhi⟩ := sortSearchAux_spec
    (fun i => decide (o.getD i 0 ≥ x)) o.length 0 o.length le_rfl
    (Nat.zero_le _) hmono
  rw [sortSearch] at *
  set r := sortSearchAux (fun i => decide (o.getD i 0 ≥ x))
    o.length 0 o.length with hr
  constructor
  · rintro ⟨hrl, hrx⟩
    rw [List.getD_eq_getElem o 0 hrl] at hrx
    exact hrx ▸ List.getElem_mem hrl
  · intro hx
    obtain ⟨t, ht, hxt⟩ := List.getElem_of_mem hx
    have hft : decide (o.getD t 0 ≥ x) = true :=
      decide_eq_true (by rw [List.getD_eq_getElem o 0 ht, hxt])
    have hrt : r ≤ t := by
      by_contra hc
      have := hlo t (Nat.zero_le _) (by omega)
      rw [hft] at this
      simp at this
    have hrl : r < o.length := by omega
    have hxr : x ≤ o.getD r 0 := of_decide_eq_true (hhi r le_rfl hrl)
    have hrx : o.getD r 0 ≤ o.getD t 0 := hget r t hrl ht hrt
    rw [List.getD_eq_getElem o 0 ht, hxt] at hrx
    exact ⟨hrl, le_antisymm hrx hxr⟩

lemma diff_eq_filter_of_sorted (p o : List Int)
    (hs : List.Pairwise (· ≤ ·) o) :
    int32Slice.Diff p o = p.filter (fun x => decide (x ∉ o)) := by
  induction p with
  | nil => rfl
  | cons x xs ih =>
    rw [int32Slice.Diff, List.filter_cons]
    by_cases hx : x ∈ o
    · rw [if_pos ((sortSearch_hit_iff o x hs).mpr hx), ih]
      simp [hx]
    · rw [if_neg (fun hc => hx ((sortSearch_hit_iff o x hs).mp hc)), ih]
      simp [hx]

-- ------------------------------------------------------------------
-- Serialization round-trip helpers

lemma nodup_mapInsert (m : List Int) (k : Int) (h : m.Nodup) :
    (mapInsert m k).Nodup := by
  rw [mapInsert]
  by_cases hk : k ∈ m
  · rw [if_pos hk]; exact h
  · rw [if_neg hk]
    simp [List.nodup_append, h, hk]

lemma foldlM_deserStep_nodup (toks : List (List Char)) :
    ∀ m m' : List Int, m.Nodup →
      toks.foldlM deserStep (some m) = some (some m') → m'.Nodup := by
  induction toks with
  | nil =>
    intro m m' hnd h
    simp only [List.foldlM_nil] at h
    obtain rfl : m = m' := by
      have := Option.some_injective _ h
      exact Option.some_injective _ this
    exact hnd
  | cons t ts ih =>
    intro m m' hnd h
    rw [List.foldlM_cons] at h
    by_cases ht : t = []
    · rw [show deserStep (some m) t = some (some m) from by
        rw [deserStep, if_pos ht]] at h
      exact ih m m' hnd h
    · rcases hp : parseInt64 t with _ | off
      · rw [show deserStep (some m) t = some (some m) from by
          rw [deserStep, if_neg ht, hp]] at h
        exact ih m m' hnd h
      · rw [show deserStep (some m) t = some (some (mapInsert m off)) from by
          rw [deserStep, if_neg ht, hp]] at h
        exact ih (mapInsert m off) m' (nodup_mapInsert m off hnd) h

lemma serialize_metadata_flatten (l : List Int) (off : Int)
    (meta : List Char) :
    (offsetInfo.Serialize ⟨off, some l, meta⟩).Metadata
      = (l.map (fun k => formatInt k ++ [','])).flatten := by
  show (l.foldl (fun meta k => meta ++ formatInt k ++ [',']) []) = _
  simp only [List.append_assoc]
  rw [foldl_append_eq_join (fun k => formatInt k ++ [',']) l []]
  rfl

lemma splitComma_serialized (l : List Int) :
    splitComma ((l.map (fun k => formatInt k ++ [','])).flatten)
      = l.map formatInt ++ [[]] := by
  induction l with
  | nil => rfl
  | cons k l ih =>
    rw [List.map_cons, List.flatten_cons, List.append_assoc,
      List.singleton_append,
      splitComma_token _ _ (comma_not_mem_formatInt k), ih, List.map_cons,
      List.cons_append]

-- ------------------------------------------------------------------
-- Claim theorems

lemma nextOffset_mem_pending_aux (i : offsetInfo) (f : Int)
    (hoff : i.Offset > -1) (hp : i.PendingOffsets.getD [] ≠ []) :
    i.NextOffset f ∈ i.PendingOffsets.getD [] := by
  rcases h : i.PendingOffsets.getD [] with _ | ⟨k, ks⟩
  · exact absurd h hp
  · rw [offsetInfo.NextOffset, if_pos hoff, h]
    exact List.mem_cons_self k ks

/-- C1 (counterexample): the claim "for every ledger with a non-empty
pending set, `NextOffset(f)` returns a member of the pending set, for every
fallback" is false: with `Offset = -1` and pending set `{5}`, `NextOffset 99`
returns the fallback `99`, which is not in the pending set. -/
theorem nextOffset_pending_member_cex :
    ((⟨-1, some [5], []⟩ : offsetInfo).PendingOffsets.getD [] ≠ []) ∧
    (⟨-1, some [5], []⟩ : offsetInfo).NextOffset 99 = 99 ∧
    (99 : Int) ∉ (⟨-1, some [5], []⟩ : offsetInfo).PendingOffsets.getD [] := by
  refine ⟨by decide, rfl, by decide⟩

/-- C1 (amended): for every ledger with a confirmed offset (`Offset > -1`)
and a non-empty pending set, `NextOffset f` is a member of the pending set,
for every fallback `f`. -/
theorem nextOffset_mem_pending_of_confirmed (i : offsetInfo) (f : Int)
    (hoff : i.Offset > -1) (hp : i.PendingOffsets.getD [] ≠ []) :
    i.NextOffset f ∈ i.PendingOffsets.getD [] :=
  nextOffset_mem_pending_aux i f hoff hp

/-- Witness for the amended C1 at the concrete ledger
`{Offset := 3, pending := {5}}` with fallback `99`. -/
theorem nextOffset_mem_pending_witness :
    (⟨3, some [5], []⟩ : offsetInfo).NextOffset 99
      ∈ (⟨3, some [5], []⟩ : offsetInfo).PendingOffsets.getD [] :=
  nextOffset_mem_pending_of_confirmed ⟨3, some [5], []⟩ 99 (by decide)
    (by decide)

/-- C2: `NextOffset`'s selection rule.  If `Offset > -1`: a member of the
pending set when non-empty, else `Offset`.  If `Offset = -1`: the fallback.
In particular `Offset = -1` with no pending offsets yields `f`, and
`Offset ≥ 0` with an empty pending set yields `Offset`, independent of
`f`. -/
theorem nextOffset_selection_rule (i : offsetInfo) (f : Int) :
    (i.Offset > -1 → i.PendingOffsets.getD [] ≠ [] →
      i.NextOffset f ∈ i.PendingOffsets.getD []) ∧
    (i.Offset > -1 → i.PendingOffsets.getD [] = [] →
      i.NextOffset f = i.Offset) ∧
    (i.Offset = -1 → i.NextOffset f = f) ∧
    (i.Offset = -1 → i.PendingOffsets.getD [] = [] → i.NextOffset f = f) ∧
    (i.Offset ≥ 0 → i.PendingOffsets.getD [] = [] →
      i.NextOffset f = i.Offset) := by
  refine ⟨?_, ?_, ?_, ?_, ?_⟩
  · intro hoff hp
    exact nextOffset_mem_pending_aux i f hoff hp
  · intro hoff hp
    rw [offsetInfo.NextOffset, if_pos hoff, hp]
  · intro hoff
    rw [offsetInfo.NextOffset, if_neg (by omega)]
  · intro hoff _
    rw [offsetInfo.NextOffset, if_neg (by omega)]
  · intro hoff hp
    rw [offsetInfo.NextOffset, if_pos (by omega), hp]

/-- C3 (counterexample): the claim "every subsequent `Close` returns the
result of the first close" is false: on a consumer whose stream close
returns the error `"e"`, the first `Close` returns that error and the
second returns nil. -/
theorem close_second_result_cex :
    (partitionConsumer.Close
      { pcm := { closeErr := some ['e'], cursor := 0, closed := false }
        state := zeroPartitionState
        closed := false, dyingClosed := false }).1 = some ['e'] ∧
    (partitionConsumer.Close
      (partitionConsumer.Close
        { pcm := { closeErr := some ['e'], cursor := 0, closed := false }
          state := zeroPartitionState
          closed := false, dyingClosed := false }).2).1 = none ∧
    (some ['e'] : Option (List Char)) ≠ none := by
  refine ⟨rfl, rfl, by decide⟩

/-- C3 (amended): `Close` after the first call is a no-op — the `closed`
guard makes every later call return nil immediately (before the blocking
wait) and leave the consumer unchanged; it returns the first call's result
only when that result was nil. -/
theorem close_second_call_noop (c : partitionConsumer) :
    partitionConsumer.Close ((partitionConsumer.Close c).2)
      = (none, (partitionConsumer.Close c).2) := by
  by_cases h : c.closed
  · simp [partitionConsumer.Close, h]
  · simp [partitionConsumer.Close, h]

/-- C4 (counterexample): the claim "every state accessor is safe to invoke
on an absent (nil) consumer handle" is false: `AddPendingOffset`,
`RemovePendingOffset` and `SetOffset` have no nil check and dereference the
nil handle (`none` models the panic). -/
theorem nil_handle_accessor_cex :
    partitionConsumer.AddPendingOffset none 5 = none ∧
    partitionConsumer.RemovePendingOffset none 5 = none ∧
    partitionConsumer.SetOffset none 5 = none :=
  ⟨rfl, rfl, rfl⟩

/-- C4 (amended): on an absent (nil) consumer handle, `State` returns the
zero-value state and `MarkOffset` / `MarkCommitted` return normally with no
effect; `AddPendingOffset`, `RemovePendingOffset` and `SetOffset` are not
nil-safe — they dereference the handle and panic (`none`). -/
theorem nil_handle_accessor_split :
    partitionConsumer.State none = some zeroPartitionState ∧
    (∀ (o : Int) (m : List Char),
      partitionConsumer.MarkOffset none o m = some none) ∧
    (∀ o : Int, partitionConsumer.MarkCommitted none o = some none) ∧
    (∀ o : Int, partitionConsumer.AddPendingOffset none o = none) ∧
    (∀ o : Int, partitionConsumer.RemovePendingOffset none o = none) ∧
    (∀ o : Int, partitionConsumer.SetOffset none o = none) :=
  ⟨rfl, fun _ _ => rfl, fun _ => rfl, fun _ => rfl, fun _ => rfl,
    fun _ => rfl⟩

/-- C5: `Deserialize` requires an allocated pending map: on a ledger whose
pending map is nil and whose metadata holds at least one parseable decimal
token, the insertion is a write to a nil map — a panic (`none`), not a
skipped token — and `State` on a consumer holding such a recovered ledger
panics as well. -/
theorem deserialize_nil_map_crash (c : partitionConsumer)
    (hnil : c.state.Info.PendingOffsets = none)
    (htok : ∃ t ∈ splitComma c.state.Info.Metadata, (parseInt64 t).isSome) :
    offsetInfo.Deserialize c.state.Info = none ∧
    partitionConsumer.State (some c) = none := by
  have hdeser : offsetInfo.Deserialize c.state.Info = none := by
    rw [offsetInfo.Deserialize, hnil, foldlM_deserStep_none _ htok]
    rfl
  have hm : c.state.Info.Metadata ≠ [] := by
    intro he
    obtain ⟨t, ht, hs⟩ := htok
    rw [he] at ht
    have ht' : t = [] := by simpa [splitComma] using ht
    subst ht'
    rw [parseInt64] at hs
    simp at hs
  refine ⟨hdeser, ?_⟩
  rw [partitionConsumer.State]
  rw [if_neg hm, if_pos (by rw [hnil]; rfl), hdeser]

/-- Witness for C5 at the concrete recovered ledger
`{Offset := 0, pending := nil, Metadata := "5,"}`. -/
theorem deserialize_nil_map_crash_witness :
    offsetInfo.Deserialize ⟨0, none, ['5', ',']⟩ = none ∧
    partitionConsumer.State (some
      { pcm := { closeErr := none, cursor := 0, closed := false }
        state := { Info := ⟨0, none, ['5', ',']⟩, Dirty := false }
        closed := false, dyingClosed := false }) = none :=
  deserialize_nil_map_crash
    { pcm := { closeErr := none, cursor := 0, closed := false }
      state := { Info := ⟨0, none, ['5', ',']⟩, Dirty := false }
      closed := false, dyingClosed := false } rfl (by decide)

/-- C6: `MarkOffset(offset, metadata)` advances the confirmed offset,
adopts non-empty metadata and sets `Dirty`, exactly when `offset` strictly
exceeds the confirmed offset; a lower-or-equal offset leaves the entire
state unchanged. -/
theorem markOffset_monotonic_advance (c : partitionConsumer) (o : Int)
    (m : List Char) :
    ∃ c', partitionConsumer.MarkOffset (some c) o m = some (some c') ∧
      (o > c.state.Info.Offset →
        c'.state.Info.Offset = o ∧
        c'.state.Info.Metadata
          = (if m ≠ [] then m else c.state.Info.Metadata) ∧
        c'.state.Dirty = true ∧
        c'.state.Info.PendingOffsets = c.state.Info.PendingOffsets ∧
        c'.pcm = c.pcm ∧ c'.closed = c.closed ∧
        c'.dyingClosed = c.dyingClosed) ∧
      (¬ o > c.state.Info.Offset → c' = c) := by
  by_cases h : o > c.state.Info.Offset
  · refine ⟨{ c with
      state := { c.state with
        Info := { c.state.Info with
          Offset := o
          Metadata := if m ≠ [] then m else c.state.Info.Metadata }
        Dirty := true } }, ?_, ?_, ?_⟩
    · rw [partitionConsumer.MarkOffset, if_pos h]
    · intro _
      exact ⟨rfl, rfl, rfl, rfl, rfl, rfl, rfl⟩
    · intro hn
      exact absurd h hn
  · refine ⟨c, ?_, fun hg => absurd hg h, fun _ => rfl⟩
    rw [partitionConsumer.MarkOffset, if_neg h]

/-- Witness for C6 at a concrete consumer with confirmed offset `2`,
marking offset `5` with metadata `"m"` (advance) — the hypotheses of the
inner implications are discharged at this input. -/
theorem markOffset_monotonic_advance_witness :
    ∃ c', partitionConsumer.MarkOffset (some
      { pcm := { closeErr := none, cursor := 0, closed := false }
        state := { Info := ⟨2, some [], []⟩, Dirty := false }
        closed := false, dyingClosed := false }) 5 ['m']
        = some (some c') ∧
      c'.state.Info.Offset = 5 ∧ c'.state.Info.Metadata = ['m'] ∧
      c'.state.Dirty = true := by
  obtain ⟨c', heq, hadv, _⟩ := markOffset_monotonic_advance
    { pcm := { closeErr := none, cursor := 0, closed := false }
      state := { Info := ⟨2, some [], []⟩, Dirty := false }
      closed := false, dyingClosed := false } 5 ['m']
  obtain ⟨h1, h2, h3, _⟩ := hadv (by decide)
  exact ⟨c', heq, h1, by rw [h2]; rfl, h3⟩

/-- C7: `MarkCommitted(offset)` clears `Dirty` exactly when the offset
equals the last confirmed offset or the metadata is non-empty; otherwise
the consumer is unchanged, and in every case the ledger and the rest of the
state are untouched. -/
theorem markCommitted_clears_dirty (c : partitionConsumer) (o : Int) :
    ∃ c', partitionConsumer.MarkCommitted (some c) o = some (some c') ∧
      ((o = c.state.Info.Offset ∨ c.state.Info.Metadata ≠ []) →
        c'.state.Dirty = false) ∧
      (¬ (o = c.state.Info.Offset ∨ c.state.Info.Metadata ≠ []) →
        c' = c) ∧
      c'.state.Info = c.state.Info ∧ c'.pcm = c.pcm ∧
      c'.closed = c.closed ∧ c'.dyingClosed = c.dyingClosed := by
  by_cases h : o = c.state.Info.Offset ∨ c.state.Info.Metadata ≠ []
  · refine ⟨{ c with state := { c.state with Dirty := false } }, ?_,
      fun _ => rfl, fun hn => absurd h hn, rfl, rfl, rfl, rfl⟩
    rw [partitionConsumer.MarkCommitted, if_pos h]
  · refine ⟨c, ?_, fun hg => absurd hg h, fun _ => rfl, rfl, rfl, rfl, rfl⟩
    rw [partitionConsumer.MarkCommitted, if_neg h]

/-- Witness for C7 at a concrete dirty consumer whose confirmed offset `4`
is committed — the clearing hypothesis is discharged at this input. -/
theorem markCommitted_clears_dirty_witness :
    ∃ c', partitionConsumer.MarkCommitted (some
      { pcm := { closeErr := none, cursor := 0, closed := false }
        state := { Info := ⟨4, some [], []⟩, Dirty := true }
        closed := false, dyingClosed := false }) 4 = some (some c') ∧
      c'.state.Dirty = false := by
  obtain ⟨c', heq, hclear, _⟩ := markCommitted_clears_dirty
    { pcm := { closeErr := none, cursor := 0, closed := false }
      state := { Info := ⟨4, some [], []⟩, Dirty := true }
      closed := false, dyingClosed := false } 4
  exact ⟨c', heq, hclear (Or.inl (by decide))⟩

/-- C8: round-trip.  `Serialize` renders the pending set as decimal tokens
each followed by a comma (the empty set gives the empty string), and
`Serialize` followed by `Deserialize` on a fresh ledger reproduces the
pending set exactly — the result is a permutation of the original key
list, whatever iteration order the map produced. -/
theorem serialize_deserialize_roundtrip (l : List Int) (hnd : l.Nodup)
    (hrange : ∀ k ∈ l, 0 ≤ k ∧ k ≤ 2 ^ 63 - 1) (off off' : Int)
    (meta : List Char) :
    (offsetInfo.Serialize ⟨off, some l, meta⟩).Metadata
      = (l.map (fun k => formatInt k ++ [','])).flatten ∧
    (l = [] → (offsetInfo.Serialize ⟨off, some l, meta⟩).Metadata = []) ∧
    ∃ m' : List Int,
      offsetInfo.Deserialize
        ⟨off', some [], (offsetInfo.Serialize ⟨off, some l, meta⟩).Metadata⟩
        = some ⟨off', some m',
            (offsetInfo.Serialize ⟨off, some l, meta⟩).Metadata⟩ ∧
      (∀ x : Int, x ∈ m' ↔ x ∈ l) ∧ List.Perm m' l := by
  have hser := serialize_metadata_flatten l off meta
  refine ⟨hser, fun hl => by rw [hser, hl]; rfl, ?_⟩
  obtain ⟨m', hfold, hmem⟩ :=
    foldlM_deserStep_some (splitComma
      ((l.map (fun k => formatInt k ++ [','])).flatten)) []
  have hmem' : ∀ x : Int, x ∈ m' ↔ x ∈ l := by
    intro x
    rw [hmem x, splitComma_serialized l]
    constructor
    · rintro (hx | ⟨t, ht, hpt⟩)
      · exact absurd hx (List.not_mem_nil x)
      · rcases List.mem_append.mp ht with ht | ht
        · obtain ⟨k, hk, rfl⟩ := List.mem_map.mp ht
          rw [parseInt64_formatInt k (hrange k hk).1 (hrange k hk).2] at hpt
          exact (Option.some_injective _ hpt) ▸ hk
        · have ht' : t = [] := by simpa using ht
          subst ht'
          rw [parseInt64] at hpt
          simp at hpt
    · intro hx
      refine Or.inr ⟨formatInt x, ?_, ?_⟩
      · exact List.mem_append.mpr (Or.inl (List.mem_map_of_mem formatInt hx))
      · exact parseInt64_formatInt x (hrange x hx).1 (hrange x hx).2
  have hnd' : m'.Nodup := foldlM_deserStep_nodup _ [] m' List.nodup_nil hfold
  refine ⟨m', ?_, hmem', ?_⟩
  · rw [offsetInfo.Deserialize]
    show ((splitComma ((offsetInfo.Serialize ⟨off, some l, meta⟩).Metadata)).foldlM
      deserStep (some [])).map _ = _
    rw [hser, hfold]
    rfl
  · exact (List.perm_ext_iff_of_nodup hnd' hnd).mpr hmem'

/-- Witness for C8 at the concrete pending set `{5, 23}`: the hypotheses
(no duplicates, non-negative 64-bit values) are discharged at this input
and the round-trip membership is evaluated. -/
theorem serialize_deserialize_roundtrip_witness :
    (offsetInfo.Serialize ⟨7, some [5, 23], []⟩).Metadata
      = ['5', ',', '2', '3', ','] ∧
    ∃ m' : List Int,
      offsetInfo.Deserialize ⟨-1, some [], ['5', ',', '2', '3', ',']⟩
        = some ⟨-1, some m', ['5', ',', '2', '3', ',']⟩ ∧
      ((5 : Int) ∈ m' ∧ (23 : Int) ∈ m') := by
  obtain ⟨hser, _, m', hdes, hmem, _⟩ :=
    serialize_deserialize_roundtrip [5, 23] (by decide) (by decide) 7 (-1) []
  have hser' : (offsetInfo.Serialize ⟨7, some [5, 23], []⟩).Metadata
      = ['5', ',', '2', '3', ','] := by
    rw [hser]; rfl
  refine ⟨hser', m', ?_, (hmem 5).mpr (by decide), (hmem 23).mpr (by decide)⟩
  rw [← hser', hdes, hser']

/-- C9: for every metadata string (on a ledger with an allocated pending
map), `Deserialize` never errors: it returns a ledger whose pending set
holds exactly the prior keys plus the values of the parseable tokens —
malformed tokens are silently dropped. -/
theorem deserialize_drops_malformed (cs : List Char) (off : Int)
    (m : List Int) :
    ∃ m' : List Int,
      offsetInfo.Deserialize ⟨off, some m, cs⟩ = some ⟨off, some m', cs⟩ ∧
      ∀ x : Int, x ∈ m' ↔ x ∈ m ∨ ∃ t ∈ splitComma cs,
        parseInt64 t = some x := by
  obtain ⟨m', hfold, hmem⟩ := foldlM_deserStep_some (splitComma cs) m
  refine ⟨m', ?_, hmem⟩
  rw [offsetInfo.Deserialize]
  show ((splitComma cs).foldlM deserStep (some m)).map _ = _
  rw [hfold]
  rfl

/-- C10: for ascending, deduplicated sequences `A` and `B`, `A.Diff B` is,
in `A`'s order, exactly the elements of `A` absent from `B`. -/
theorem diff_ascending_sequences (A B : int32Slice)
    (_hA : List.Pairwise (· < ·) A) (hB : List.Pairwise (· < ·) B) :
    int32Slice.Diff A B = A.filter (fun x => decide (x ∉ B)) :=
  diff_eq_filter_of_sorted A B (hB.imp le_of_lt)

/-- Witness for C10 at the claim's concrete sequences:
`[0,1,2,3,4,5].Diff [1,3,5] = [0,2,4]`, `A.Diff A = []` and
`[].Diff B = []`. -/
theorem diff_ascending_sequences_witness :
    int32Slice.Diff [0, 1, 2, 3, 4, 5] [1, 3, 5] = [0, 2, 4] ∧
    int32Slice.Diff [0, 1, 2, 3, 4, 5] [0, 1, 2, 3, 4, 5] = [] ∧
    int32Slice.Diff [] [1, 3, 5] = [] := by
  refine ⟨?_, ?_, rfl⟩
  · rw [diff_ascending_sequences [0, 1, 2, 3, 4, 5] [1, 3, 5] (by decide)
      (by decide)]
    decide
  · rw [diff_ascending_sequences [0, 1, 2, 3, 4, 5] [0, 1, 2, 3, 4, 5]
      (by decide) (by decide)]
    decide
